import Mathlib

/-!
Verification development for the directive-extraction and execution pipeline
of `src/ai_agent.py`.

The Python regular expressions are embedded as explicit character scanners
over `List Char`:

* `` ```(\w+(?:\.\w+)?)\n(.*?)``` `` (with DOTALL) becomes `blockScanF`,
  which at each position tries to match an opening fence, a label made of a
  word-character run optionally followed by one dot and a second run, a
  newline, and then the nearest closing fence (non-greedy content);
* `\$SHELL:\s*(.+)$` (with MULTILINE) becomes `shellScanF`, which at each
  position tries the literal marker, greedily consumes whitespace (which in
  Python may cross newlines), and then captures a non-empty run of
  non-newline characters ending at a line end, reproducing the regex
  engine's backtracking when the whitespace run reaches the end of input.

Word and whitespace characters are taken in their ASCII reading
(`[A-Za-z0-9_]` and `[ \t\n\r\v\f]`), the character classes the agent's
directives actually use.

The executor and the chat orchestrator are embedded with their effects made
explicit: `ExecEnv` supplies the outcome of each file write and each spawned
command, and the functions additionally return the ordered trace of `Event`s
(files written, commands run) so that "a command is never run" is a provable
statement.  Python exceptions during a write and transport failures are
modelled as error values (`Option String` / `Except String`).
-/

def isSpaceChar (c : Char) : Bool :=
  c == ' ' || c == '\t' || c == '\n' || c == '\r' || c.val == 11 || c.val == 12

def isWordChar (c : Char) : Bool :=
  c.isAlpha || c.isDigit || c == '_'

/-- Python `str.strip()` restricted to its ASCII whitespace behaviour. -/
def stripChars (l : List Char) : List Char :=
  ((l.dropWhile isSpaceChar).reverse.dropWhile isSpaceChar).reverse

def pyStrip (s : String) : String := String.mk (stripChars s.data)

/-- The literal `$SHELL:` marker of the command regex. -/
def MK : List Char := ['$', 'S', 'H', 'E', 'L', 'L', ':']

def startsWithMarker (l : List Char) : Bool := List.isPrefixOf MK l

/-- Behaviour of `\s*(.+)$` on the text following the marker: greedy
whitespace, then a non-empty non-newline run ending at a line end, with the
regex engine's backtracking when the whitespace swallows the whole input. -/
def matchTail (l : List Char) : Option (List Char × List Char) :=
  match l.dropWhile isSpaceChar with
  | [] =>
    match l.reverse.dropWhile (fun c => c == '\n') with
    | [] => none
    | c :: _ => some ([c], (l.reverse.takeWhile (fun c => c == '\n')).reverse)
  | c :: r1 =>
    some ((c :: r1).takeWhile (fun d => !(d == '\n')),
          (c :: r1).dropWhile (fun d => !(d == '\n')))

/-- Fuel-indexed scan of `re.finditer(r"\$SHELL:\s*(.+)$", text, re.MULTILINE)`:
try the pattern at every position, resume after each match. -/
def shellScanF : Nat → List Char → List (List Char)
  | 0, _ => []
  | _ + 1, [] => []
  | fuel + 1, c :: rest =>
    if startsWithMarker (c :: rest) then
      match matchTail (List.drop 7 (c :: rest)) with
      | some (g, r) => g :: shellScanF fuel r
      | none => shellScanF fuel rest
    else shellScanF fuel rest

def shellMatches (l : List Char) : List (List Char) :=
  shellScanF (l.length + 1) l

/-- `_extract_shell_commands` of `ChatbotAgent`. -/
def extract_shell_commands (s : String) : List String :=
  (shellMatches s.data).map (fun g => String.mk (stripChars g))

/-- First `$SHELL:` occurrence inside a single line: the raw remainder of the
line after the marker, if a marker occurs at all. -/
def lineRem : List Char → Option (List Char)
  | [] => none
  | c :: rest =>
    if startsWithMarker (c :: rest) then some (List.drop 7 (c :: rest))
    else lineRem rest

def lineCmd (L : List Char) : Option (List Char) :=
  (lineRem L).map (fun r => r.dropWhile isSpaceChar)

/-- A line (no newline inside) on which the command regex behaves line-locally:
if it contains the marker, some non-whitespace character follows the first
marker on the same line. -/
def goodLine (L : List Char) : Bool :=
  decide ('\n' ∉ L) &&
    (lineRem L).elim true (fun r => !((r.dropWhile isSpaceChar).isEmpty))

/-- Split on newline characters, Python `text.split("\n")` style (always at
least one piece, empty pieces kept). -/
def splitNL : List Char → List (List Char)
  | [] => [[]]
  | c :: rest =>
    if c = '\n' then [] :: splitNL rest
    else
      match splitNL rest with
      | [] => [[c]]
      | L :: ls => (c :: L) :: ls

def joinLines : List (List Char) → List Char
  | [] => []
  | [L] => L
  | L :: M :: ls => L ++ '\n' :: joinLines (M :: ls)

def fenceHead (l : List Char) : Bool := List.isPrefixOf ['`', '`', '`'] l

/-- Behaviour of `(\w+(?:\.\w+)?)\n` right after an opening fence, with the
regex engine's backtracking resolved: a maximal word run, optionally one dot
and a second maximal word run, then the mandatory newline. -/
def parseLabel (l : List Char) : Option (List Char × List Char) :=
  let a := l.takeWhile isWordChar
  if a.isEmpty then none
  else
    match l.dropWhile isWordChar with
    | '\n' :: rest => some (a, rest)
    | '.' :: r2 =>
      let b := r2.takeWhile isWordChar
      if b.isEmpty then none
      else
        match r2.dropWhile isWordChar with
        | '\n' :: rest => some (a ++ '.' :: b, rest)
        | _ => none
    | _ => none

/-- Non-greedy `(.*?)` up to the nearest closing fence. -/
def findClose : List Char → Option (List Char × List Char)
  | [] => none
  | c :: rest =>
    if fenceHead (c :: rest) then some ([], List.drop 3 (c :: rest))
    else
      match findClose rest with
      | some (content, r) => some (c :: content, r)
      | none => none

/-- Fuel-indexed scan of
`re.finditer(r"```(\w+(?:\.\w+)?)\n(.*?)```", text, re.DOTALL)`. -/
def blockScanF : Nat → List Char → List (List Char × List Char)
  | 0, _ => []
  | _ + 1, [] => []
  | fuel + 1, c :: rest =>
    if fenceHead (c :: rest) then
      match parseLabel (List.drop 3 (c :: rest)) with
      | some (lab, afterNL) =>
        match findClose afterNL with
        | some (content, r) => (lab, content) :: blockScanF fuel r
        | none => blockScanF fuel rest
      | none => blockScanF fuel rest
    else blockScanF fuel rest

def blockMatches (l : List Char) : List (List Char × List Char) :=
  blockScanF (l.length + 1) l

/-- The ordered list of raw fenced-block matches (label, untrimmed content). -/
def blockDirectives (s : String) : List (String × String) :=
  (blockMatches s.data).map (fun m => (String.mk m.1, String.mk m.2))

/-- Python `dict` assignment `d[k] = v`: update in place if the key exists
(keeping its position), otherwise append. -/
def dictInsert : List (String × String) → String → String → List (String × String)
  | [], k, v => [(k, v)]
  | (k1, v1) :: rest, k, v =>
    if k1 = k then (k1, v) :: rest else (k1, v1) :: dictInsert rest k v

def foldIns (d : List (String × String)) (items : List (String × String)) :
    List (String × String) :=
  items.foldl (fun acc p => dictInsert acc p.1 p.2) d

/-- `_extract_code_blocks` of `ChatbotAgent`: insert each match into the dict
in scan order, the content stripped, later labels overwriting earlier ones. -/
def extract_code_blocks (s : String) : List (String × String) :=
  foldIns [] ((blockDirectives s).map (fun p => (p.1, pyStrip p.2)))

/-- A label admitted by the fence-label grammar `\w+(\.\w+)?`: a non-empty
word-character run, optionally followed by one dot and a non-empty
word-character run. -/
def goodLabel (nm : List Char) : Bool :=
  let r := nm.dropWhile isWordChar
  (!(nm.takeWhile isWordChar).isEmpty) &&
    (r.isEmpty ||
      ((r.headD ' ' == '.') && (!(r.tail).isEmpty) && (r.tail).all isWordChar))

structure CmdOut where
  stdout : String
  stderr : String
  returncode : Int
deriving DecidableEq

/-- The effectful collaborators of the executor: the outcome of writing a
file (`none` = success, `some e` = the exception text) and the captured
outcome of running a shell command. -/
structure ExecEnv where
  write : String → String → Option String
  run : String → CmdOut

structure ExecutionResult where
  success : Bool
  output : String
  error : Option String := none
deriving DecidableEq

/-- Observable side effects of one executor call, in order. -/
inductive Event where
  | wrote : String → String → Event
  | ran : String → Event
deriving DecidableEq

def joinOut (ls : List String) : String := String.intercalate "\n" ls

def runCommands (env : ExecEnv) :
    List String → List String → List Event → ExecutionResult × List Event
  | [], acc, evs => (⟨true, joinOut acc, none⟩, evs)
  | cmd :: rest, acc, evs =>
    let acc1 := acc ++ ["\n🔧 Running: " ++ cmd]
    let r := env.run cmd
    let acc2 := if r.stdout = "" then acc1 else acc1 ++ ["📝 Output:", r.stdout]
    if r.returncode = 0 then runCommands env rest acc2 (evs ++ [Event.ran cmd])
    else (⟨false, joinOut acc2,
           some ("❌ Command failed: " ++ cmd ++ "\n💥 Error: " ++ r.stderr)⟩,
          evs ++ [Event.ran cmd])

def runWrites (env : ExecEnv) :
    List (String × String) → List String → List String → List Event →
    ExecutionResult × List Event
  | [], cmds, acc, evs => runCommands env cmds acc evs
  | (fn, code) :: rest, cmds, acc, evs =>
    match env.write fn code with
    | some e =>
      (⟨false, joinOut acc, some ("💥 Oops! Something went wrong: " ++ e)⟩, evs)
    | none =>
      runWrites env rest cmds (acc ++ ["✨ Created/Updated " ++ fn])
        (evs ++ [Event.wrote fn code])

/-- `execute_code_and_commands` of `ai_agent.py`, with the event trace made
explicit. -/
def execute_code_and_commands (env : ExecEnv) (blocks : List (String × String))
    (commands : List String) : ExecutionResult × List Event :=
  runWrites env blocks commands [] []

structure Message where
  role : String
  content : String
deriving DecidableEq

structure AgentState where
  history : List Message
deriving DecidableEq

def oopsMsg (e : String) : String := "💥 Oops! " ++ e

/-- Assembly of `final_response` in `ChatbotAgent.chat` (Python truthiness:
an empty output or empty error string adds nothing). -/
def renderTurn (result : ExecutionResult) (ai : String) : String :=
  (ai ++ (if result.output = "" then ""
          else "\n\n📋 Here's what happened:\n" ++ result.output)) ++
    (match result.error with
     | some err => if err = "" then "" else "\n\n❌ Uh oh:\n" ++ err
     | none => "")

/-- `ChatbotAgent.chat`: append the user message, call the transport (an
`Except` models the exceptions of the request/JSON path), and on success
parse, execute, append the raw assistant reply and format the turn result. -/
def chat (transport : List Message → Except String String) (env : ExecEnv)
    (st : AgentState) (user_input : String) : AgentState × String × List Event :=
  let h1 := st.history ++ [⟨"user", user_input⟩]
  match transport h1 with
  | Except.error e => (⟨h1⟩, oopsMsg e, [])
  | Except.ok ai =>
    let pr := execute_code_and_commands env (extract_code_blocks ai)
      (extract_shell_commands ai)
    (⟨h1 ++ [⟨"assistant", ai⟩]⟩, renderTurn pr.1 ai, pr.2)

/-- Modelled from the spec: the command list claim C4 asserts — one command
per line containing the `$SHELL:` marker, in line order, each equal to the
trimmed remainder of that line after the first marker. -/
def specLineCommands (s : String) : List String :=
  (splitNL s.data).filterMap (fun L => (lineRem L).map (fun r => String.mk (stripChars r)))

/-- Every write in the list succeeds in this environment. -/
abbrev writesOk (env : ExecEnv) (l : List (String × String)) : Prop :=
  ∀ p ∈ l, env.write p.1 p.2 = none

/-- Every command exits with status zero in this environment. -/
abbrev allCmdsOk (env : ExecEnv) : Prop :=
  ∀ c, (env.run c).returncode = 0

/-- Every line of the text is line-local for the command regex. -/
abbrev goodLines (s : String) : Prop :=
  ∀ L ∈ splitNL s.data, goodLine L = true

/-- Environment in which every write succeeds and every command exits zero
with no output. -/
def envOk : ExecEnv := ⟨fun _ _ => none, fun _ => ⟨"", "", 0⟩⟩

/-- Environment realising claim C1's scenario: `true` exits zero silently,
`false` exits non-zero with some captured stderr. -/
def envC1 : ExecEnv :=
  ⟨fun _ _ => none,
   fun c => if c = "false" then ⟨"", "boom", 1⟩ else ⟨"", "", 0⟩⟩

/-- Environment realising claim C2's scenario: writing `bad.py` raises. -/
def envC2 : ExecEnv :=
  ⟨fun fn _ => if fn = "bad.py" then some "unwritable" else none,
   fun _ => ⟨"", "", 0⟩⟩

/-- Transport that always succeeds with the reply `hello`. -/
def tOk : List Message → Except String String := fun _ => Except.ok "hello"

/-- Transport that always fails. -/
def tErr : List Message → Except String String := fun _ => Except.error "down"

def st0 : AgentState := ⟨[]⟩

/-! ## Executor lemmas -/

theorem runCommands_err (env : ExecEnv) :
    ∀ (cmds : List String) (acc : List String) (evs : List Event),
    ((runCommands env cmds acc evs).1.success = false ↔
      (runCommands env cmds acc evs).1.error ≠ none) := by
  intro cmds
  induction cmds with
  | nil => intro acc evs; simp [runCommands]
  | cons cmd rest ih =>
    intro acc evs
    simp only [runCommands]
    by_cases h : (env.run cmd).returncode = 0
    · simpa [h] using ih _ _
    · simp [h]

theorem runWrites_err (env : ExecEnv) :
    ∀ (blocks : List (String × String)) (cmds acc : List String) (evs : List Event),
    ((runWrites env blocks cmds acc evs).1.success = false ↔
      (runWrites env blocks cmds acc evs).1.error ≠ none) := by
  intro blocks
  induction blocks with
  | nil => intro cmds acc evs; simpa [runWrites] using runCommands_err env cmds acc evs
  | cons p rest ih =>
    intro cmds acc evs
    obtain ⟨fn, code⟩ := p
    cases hw : env.write fn code with
    | none => simpa [runWrites, hw] using ih _ _ _
    | some e => simp [runWrites, hw]

/-- C6: for every execution (any directives, any outcomes), the `error` field
of the produced `ExecutionResult` is set if and only if `success` is false. -/
theorem error_iff_failure (env : ExecEnv) (blocks : List (String × String))
    (cmds : List String) :
    (execute_code_and_commands env blocks cmds).1.success = false ↔
      (execute_code_and_commands env blocks cmds).1.error ≠ none :=
  runWrites_err env blocks cmds [] []

/-- C1: with commands `["true", "false", "echo never"]`, where `true` exits
zero with no output and `false` exits non-zero, the executor stops at
`false`: `success` is false, the output log holds only the two `Running`
lines (no stdout of any command, nothing of `echo never`), the error names
`false` together with its captured stderr, and the event trace shows that
`echo never` was never spawned — the result does not depend on it at all. -/
theorem cmd_failure_short_circuits (env : ExecEnv) (es : String) (rc : Int)
    (h1 : env.run "true" = ⟨"", "", 0⟩)
    (h2 : env.run "false" = ⟨"", es, rc⟩)
    (h3 : rc ≠ 0) :
    execute_code_and_commands env [] ["true", "false", "echo never"] =
      (⟨false, joinOut ["\n🔧 Running: true", "\n🔧 Running: false"],
        some ("❌ Command failed: false\n💥 Error: " ++ es)⟩,
       [Event.ran "true", Event.ran "false"]) := by
  simp [execute_code_and_commands, runWrites, runCommands, h1, h2, h3]

/-- Witness for C1, in the environment `envC1`. -/
theorem cmd_failure_short_circuits_witness :
    (envC1.run "true" = ⟨"", "", 0⟩ ∧ envC1.run "false" = ⟨"", "boom", 1⟩ ∧
        (1 : Int) ≠ 0) ∧
    execute_code_and_commands envC1 [] ["true", "false", "echo never"] =
      (⟨false, joinOut ["\n🔧 Running: true", "\n🔧 Running: false"],
        some ("❌ Command failed: false\n💥 Error: " ++ "boom")⟩,
       [Event.ran "true", Event.ran "false"]) :=
  ⟨⟨by decide, by decide, by decide⟩,
   cmd_failure_short_circuits envC1 "boom" 1 (by decide) (by decide) (by decide)⟩

theorem runWrites_fail (env : ExecEnv) (fn code e : String)
    (rest : List (String × String)) (cmds : List String)
    (he : env.write fn code = some e) :
    ∀ (good : List (String × String)) (acc : List String) (evs : List Event),
    (∀ p ∈ good, env.write p.1 p.2 = none) →
    runWrites env (good ++ (fn, code) :: rest) cmds acc evs =
      (⟨false, joinOut (acc ++ good.map (fun p => "✨ Created/Updated " ++ p.1)),
        some ("💥 Oops! Something went wrong: " ++ e)⟩,
       evs ++ good.map (fun p => Event.wrote p.1 p.2)) := by
  intro good
  induction good with
  | nil => intro acc evs _; simp [runWrites, he]
  | cons p good' ih =>
    intro acc evs hall
    have hp : env.write p.1 p.2 = none := hall p (by simp)
    obtain ⟨fn1, code1⟩ := p
    simp only [List.cons_append, runWrites, hp, List.append_eq]
    rw [ih _ _ (fun q hq => hall q (by simp [hq]))]
    simp

/-- C2: when the writes of `good` succeed and the next directive's write
fails, the executor aborts: `success` is false, the error carries the
exception text, the output log holds exactly the log lines of the earlier
successful writes, no command is run even though commands are present, and
the trace shows the earlier writes happened and nothing undoes them. -/
theorem write_failure_short_circuits (env : ExecEnv)
    (good : List (String × String)) (fn code e : String)
    (rest : List (String × String)) (cmds : List String)
    (_hne : good ≠ []) (hw : writesOk env good)
    (he : env.write fn code = some e) :
    execute_code_and_commands env (good ++ (fn, code) :: rest) cmds =
      (⟨false, joinOut (good.map (fun p => "✨ Created/Updated " ++ p.1)),
        some ("💥 Oops! Something went wrong: " ++ e)⟩,
       good.map (fun p => Event.wrote p.1 p.2)) := by
  have := runWrites_fail env fn code e rest cmds he good [] [] hw
  simpa [execute_code_and_commands] using this

/-- Witness for C2, in the environment `envC2`. -/
theorem write_failure_short_circuits_witness :
    (([(("a.py" : String), ("x" : String))] ≠ []) ∧
        writesOk envC2 [("a.py", "x")] ∧
        envC2.write "bad.py" "y" = some "unwritable") ∧
    execute_code_and_commands envC2 ([("a.py", "x")] ++ ("bad.py", "y") :: []) ["echo hi"] =
      (⟨false, joinOut ([(("a.py" : String), ("x" : String))].map
          (fun p => "✨ Created/Updated " ++ p.1)),
        some ("💥 Oops! Something went wrong: " ++ "unwritable")⟩,
       [(("a.py" : String), ("x" : String))].map (fun p => Event.wrote p.1 p.2)) :=
  ⟨⟨by decide, by decide, by decide⟩,
   write_failure_short_circuits envC2 [("a.py", "x")] "bad.py" "y" "unwritable" []
     ["echo hi"] (by decide) (by decide) (by decide)⟩

theorem runCommands_trace_all_ok (env : ExecEnv) (h : allCmdsOk env) :
    ∀ (cmds acc : List String) (evs : List Event),
    (runCommands env cmds acc evs).2 = evs ++ cmds.map Event.ran := by
  intro cmds
  induction cmds with
  | nil => intro acc evs; simp [runCommands]
  | cons cmd rest ih =>
    intro acc evs
    simp only [runCommands, h cmd, if_true]
    rw [ih]
    simp

/-! ## Orchestrator lemmas -/

/-- C7: on a successful turn (the transport returns a reply), the history
grows by exactly the user message followed by the assistant message, whose
content is the raw reply verbatim; everything before is untouched. -/
theorem chat_appends_two (t : List Message → Except String String)
    (env : ExecEnv) (st : AgentState) (inp ai : String)
    (h : t (st.history ++ [⟨"user", inp⟩]) = Except.ok ai) :
    (chat t env st inp).1.history =
      st.history ++ [⟨"user", inp⟩, ⟨"assistant", ai⟩] := by
  simp [chat, h]

/-- Witness for C7. -/
theorem chat_appends_two_witness :
    tOk (st0.history ++ [⟨"user", "hi"⟩]) = Except.ok "hello" ∧
    (chat tOk envOk st0 "hi").1.history =
      st0.history ++ [⟨"user", "hi"⟩, ⟨"assistant", "hello"⟩] :=
  ⟨rfl, chat_appends_two tOk envOk st0 "hi" "hello" rfl⟩

/-- C8: when the transport fails, the history has grown by exactly the user
message, no assistant message is appended, the returned text reports the
failure, and no file or command side effect happens. -/
theorem chat_transport_failure (t : List Message → Except String String)
    (env : ExecEnv) (st : AgentState) (inp e : String)
    (h : t (st.history ++ [⟨"user", inp⟩]) = Except.error e) :
    chat t env st inp = (⟨st.history ++ [⟨"user", inp⟩]⟩, oopsMsg e, []) := by
  simp only [chat]
  rw [h]

/-- Witness for C8. -/
theorem chat_transport_failure_witness :
    tErr (st0.history ++ [⟨"user", "hi"⟩]) = Except.error "down" ∧
    chat tErr envOk st0 "hi" = (⟨st0.history ++ [⟨"user", "hi"⟩]⟩, oopsMsg "down", []) :=
  ⟨rfl, chat_transport_failure tErr envOk st0 "hi" "down" rfl⟩

/-- C10: `chat` is total at its interface — for every transport outcome and
every environment it returns a string; a transport failure is rendered into
the returned text (`oopsMsg`), and on a reply the returned text is the
formatted turn result, execution failures included as data. -/
theorem chat_is_total (t : List Message → Except String String)
    (env : ExecEnv) (st : AgentState) (inp : String) :
    (∃ e, t (st.history ++ [⟨"user", inp⟩]) = Except.error e ∧
        chat t env st inp = (⟨st.history ++ [⟨"user", inp⟩]⟩, oopsMsg e, [])) ∨
    (∃ ai, t (st.history ++ [⟨"user", inp⟩]) = Except.ok ai ∧
        (chat t env st inp).2.1 =
          renderTurn (execute_code_and_commands env (extract_code_blocks ai)
            (extract_shell_commands ai)).1 ai) := by
  cases h : t (st.history ++ [⟨"user", inp⟩]) with
  | error e => exact Or.inl ⟨e, rfl, by simp [chat, h]⟩
  | ok ai => exact Or.inr ⟨ai, rfl, by simp [chat, h]⟩

/-! ## List helper lemmas -/

theorem dwLenLe {p : Char → Bool} : ∀ l : List Char, (l.dropWhile p).length ≤ l.length := by
  intro l
  induction l with
  | nil => simp
  | cons c l' ih =>
    rw [List.dropWhile_cons]
    by_cases hc : p c = true
    · simp only [hc, if_true]
      exact Nat.le_trans ih (Nat.le_succ _)
    · simp [hc]

theorem twLenLe {p : Char → Bool} : ∀ l : List Char, (l.takeWhile p).length ≤ l.length := by
  intro l
  induction l with
  | nil => simp
  | cons c l' ih =>
    rw [List.takeWhile_cons]
    by_cases hc : p c = true
    · simpa [hc] using ih
    · simp [hc]

theorem mem_dw {p : Char → Bool} : ∀ (l : List Char) (x : Char), x ∈ l.dropWhile p → x ∈ l := by
  intro l
  induction l with
  | nil => intro x h; simp at h
  | cons c l' ih =>
    intro x h
    rw [List.dropWhile_cons] at h
    by_cases hc : p c = true
    · simp only [hc, if_true] at h
      exact List.mem_cons_of_mem c (ih x h)
    · simpa [hc] using h

theorem mem_tw {p : Char → Bool} : ∀ (l : List Char) (x : Char), x ∈ l.takeWhile p → p x = true := by
  intro l
  induction l with
  | nil => intro x h; simp at h
  | cons c l' ih =>
    intro x h
    rw [List.takeWhile_cons] at h
    by_cases hc : p c = true
    · simp only [hc, if_true, List.mem_cons] at h
      rcases h with h | h
      · exact h ▸ hc
      · exact ih x h
    · simp [hc] at h

theorem dw_idem {p : Char → Bool} : ∀ l : List Char, (l.dropWhile p).dropWhile p = l.dropWhile p := by
  intro l
  induction l with
  | nil => rfl
  | cons c l' ih =>
    rw [List.dropWhile_cons]
    by_cases hc : p c = true
    · simp [hc, ih]
    · simp [List.dropWhile_cons, hc]

theorem strip_dw (r : List Char) : stripChars (r.dropWhile isSpaceChar) = stripChars r := by
  simp [stripChars, dw_idem]

theorem dw_ne_nil_append {p : Char → Bool} :
    ∀ (l m : List Char), l.dropWhile p ≠ [] →
      (l ++ m).takeWhile p = l.takeWhile p ∧ (l ++ m).dropWhile p = l.dropWhile p ++ m := by
  intro l
  induction l with
  | nil => intro m h; exact absurd rfl h
  | cons c l' ih =>
    intro m h
    by_cases hc : p c = true
    · have h' : l'.dropWhile p ≠ [] := by
        rw [List.dropWhile_cons] at h
        simpa [hc] using h
      have := ih m h'
      simp [List.takeWhile_cons, List.dropWhile_cons, hc, this.1, this.2]
    · simp [List.takeWhile_cons, List.dropWhile_cons, hc]

theorem tw_stop {p : Char → Bool} :
    ∀ (a : List Char) (b : Char) (m : List Char), (∀ c ∈ a, p c = true) → p b = false →
      (a ++ b :: m).takeWhile p = a ∧ (a ++ b :: m).dropWhile p = b :: m := by
  intro a
  induction a with
  | nil =>
    intro b m _ hb
    simp [List.takeWhile_cons, List.dropWhile_cons, hb]
  | cons c a' ih =>
    intro b m hall hb
    have hc : p c = true := hall c (by simp)
    have := ih b m (fun x hx => hall x (by simp [hx])) hb
    simp [List.takeWhile_cons, List.dropWhile_cons, hc, this.1, this.2]

theorem tw_all {p : Char → Bool} :
    ∀ a : List Char, (∀ c ∈ a, p c = true) → a.takeWhile p = a ∧ a.dropWhile p = [] := by
  intro a
  induction a with
  | nil => intro _; simp
  | cons c a' ih =>
    intro hall
    have hc : p c = true := hall c (by simp)
    have := ih (fun x hx => hall x (by simp [hx]))
    simp [List.takeWhile_cons, List.dropWhile_cons, hc, this.1, this.2]

theorem pre_ex : ∀ (p l : List Char), List.isPrefixOf p l = true → ∃ t, l = p ++ t := by
  intro p
  induction p with
  | nil => intro l _; exact ⟨l, rfl⟩
  | cons a p' ih =>
    intro l h
    cases l with
    | nil => simp [List.isPrefixOf] at h
    | cons b l' =>
      simp only [List.isPrefixOf, Bool.and_eq_true, beq_iff_eq] at h
      obtain ⟨t, ht⟩ := ih l' h.2
      exact ⟨t, by simp [h.1, ht]⟩

theorem pre_app : ∀ (p t : List Char), List.isPrefixOf p (p ++ t) = true := by
  intro p t
  induction p with
  | nil => simp [List.isPrefixOf]
  | cons a p' ih => simp [List.isPrefixOf, ih]

theorem pre_split : ∀ (p a : List Char) (b : Char) (t : List Char),
    b ∉ p → List.isPrefixOf p (a ++ b :: t) = true → List.isPrefixOf p a = true := by
  intro p
  induction p with
  | nil => intro a b t _ _; cases a <;> rfl
  | cons c p' ih =>
    intro a b t hb h
    cases a with
    | nil =>
      simp only [List.nil_append, List.isPrefixOf, Bool.and_eq_true, beq_iff_eq] at h
      have hbc : b ∈ c :: p' := by rw [← h.1]; exact List.mem_cons_self c p'
      exact absurd hbc hb
    | cons d a' =>
      simp only [List.cons_append, List.isPrefixOf, Bool.and_eq_true] at h ⊢
      exact ⟨h.1, ih a' b t (fun hm => hb (List.mem_cons_of_mem c hm)) h.2⟩

/-! ## Shell scanner lemmas -/

theorem matchTail_len : ∀ (l g r : List Char), matchTail l = some (g, r) → r.length ≤ l.length := by
  intro l g r h
  simp only [matchTail] at h
  cases hdw : l.dropWhile isSpaceChar with
  | nil =>
    rw [hdw] at h
    cases hrd : l.reverse.dropWhile (fun c => c == '\n') with
    | nil => rw [hrd] at h; simp at h
    | cons c cs =>
      rw [hrd] at h
      simp only [Option.some.injEq, Prod.mk.injEq] at h
      have hr : r = (l.reverse.takeWhile (fun c => c == '\n')).reverse := h.2.symm
      rw [hr]
      calc (l.reverse.takeWhile (fun c => c == '\n')).reverse.length
          = (l.reverse.takeWhile (fun c => c == '\n')).length := by simp
        _ ≤ l.reverse.length := twLenLe _
        _ = l.length := by simp
  | cons c r1 =>
    rw [hdw] at h
    simp only [Option.some.injEq, Prod.mk.injEq] at h
    have hr : r = (c :: r1).dropWhile (fun d => !(d == '\n')) := h.2.symm
    have h1 : r.length ≤ (c :: r1).length := hr ▸ dwLenLe _
    have h2 : (c :: r1).length ≤ l.length := by
      rw [← hdw]; exact dwLenLe _
    exact Nat.le_trans h1 h2

theorem shellScanF_congr : ∀ (f g : Nat) (l : List Char),
    l.length < f → l.length < g → shellScanF f l = shellScanF g l := by
  intro f
  induction f with
  | zero => intro g l hf hg; exact absurd hf (Nat.not_lt_zero _)
  | succ f ih =>
    intro g l hf hg
    cases g with
    | zero => exact absurd hg (Nat.not_lt_zero _)
    | succ g =>
      cases l with
      | nil => rfl
      | cons c rest =>
        simp only [shellScanF]
        by_cases hm : startsWithMarker (c :: rest) = true
        · simp only [hm, if_true]
          cases hmt : matchTail (List.drop 7 (c :: rest)) with
          | none =>
            simp only [List.length_cons] at hf hg
            exact ih g rest (by omega) (by omega)
          | some pr =>
            obtain ⟨g1, r⟩ := pr
            have hlen := matchTail_len _ _ _ hmt
            simp only [List.length_drop, List.length_cons] at hlen
            simp only [List.length_cons] at hf hg
            show g1 :: shellScanF f r = g1 :: shellScanF g r
            rw [ih g r (by omega) (by omega)]
        · simp only [hm, if_false]
          simp only [List.length_cons] at hf hg
          exact ih g rest (by omega) (by omega)

theorem shellMatches_skip (c : Char) (rest : List Char)
    (h : ¬ startsWithMarker (c :: rest) = true) :
    shellMatches (c :: rest) = shellMatches rest := by
  unfold shellMatches
  simp only [List.length_cons, shellScanF]
  simp [h]

theorem shellMatches_skip2 (c : Char) (rest : List Char)
    (h : startsWithMarker (c :: rest) = true)
    (hmt : matchTail (List.drop 7 (c :: rest)) = none) :
    shellMatches (c :: rest) = shellMatches rest := by
  unfold shellMatches
  simp only [List.length_cons, shellScanF]
  simp only [h, if_true, hmt]

theorem shellMatches_step (c : Char) (rest g r : List Char)
    (h : startsWithMarker (c :: rest) = true)
    (hmt : matchTail (List.drop 7 (c :: rest)) = some (g, r)) :
    shellMatches (c :: rest) = g :: shellMatches r := by
  unfold shellMatches
  simp only [List.length_cons, shellScanF]
  simp only [h, if_true, hmt]
  congr 1
  apply shellScanF_congr
  · have hlen := matchTail_len _ _ _ hmt
    simp only [List.length_drop, List.length_cons] at hlen
    omega
  · omega

theorem marker_nl (T : List Char) : startsWithMarker ('\n' :: T) = false := by
  have h : ('$' == '\n') = false := by decide
  simp [startsWithMarker, MK, List.isPrefixOf, h]

theorem matchTail_eq_of_dw {l : List Char} {d : Char} {ds : List Char}
    (hdw : l.dropWhile isSpaceChar = d :: ds) :
    matchTail l = some ((d :: ds).takeWhile (fun x => !(x == '\n')),
                        (d :: ds).dropWhile (fun x => !(x == '\n'))) := by
  simp only [matchTail]
  rw [hdw]

theorem goodLine_parts (L : List Char) (h : goodLine L = true) :
    '\n' ∉ L ∧ (∀ r, lineRem L = some r → r.dropWhile isSpaceChar ≠ []) := by
  simp only [goodLine, Bool.and_eq_true, decide_eq_true_eq] at h
  refine ⟨h.1, ?_⟩
  intro r hr hdw
  have h2 := h.2
  rw [hr, Option.elim_some, hdw] at h2
  simp at h2

theorem shellMatches_line :
    ∀ L : List Char, '\n' ∉ L →
      (∀ r, lineRem L = some r → r.dropWhile isSpaceChar ≠ []) →
      shellMatches L = (lineCmd L).toList := by
  intro L
  induction L with
  | nil => intro _ _; rfl
  | cons c L' ih =>
    intro hnl hrem
    by_cases hm : startsWithMarker (c :: L') = true
    · obtain ⟨L2, hL2⟩ := pre_ex MK (c :: L') hm
      have hdrop : List.drop 7 (c :: L') = L2 := by
        rw [hL2]; exact List.drop_left MK L2
      have hlr : lineRem (c :: L') = some L2 := by
        rw [lineRem, if_pos hm, hdrop]
      have hne : L2.dropWhile isSpaceChar ≠ [] := hrem L2 hlr
      have hnl2 : '\n' ∉ L2 := fun hx => hnl (hL2 ▸ List.mem_append_right MK hx)
      cases hdw : L2.dropWhile isSpaceChar with
      | nil => exact absurd hdw hne
      | cons d ds =>
        have hall : ∀ x ∈ d :: ds, (!(x == '\n')) = true := by
          intro x hx
          have : x ∈ L2 := mem_dw L2 x (by rw [hdw]; exact hx)
          simp only [Bool.not_eq_true', beq_eq_false_iff_ne]
          intro heq
          exact hnl2 (heq ▸ this)
        have htw := tw_all (p := fun d => !(d == '\n')) (d :: ds) hall
        have hmt := matchTail_eq_of_dw (l := List.drop 7 (c :: L'))
          (by rw [hdrop]; exact hdw)
        rw [htw.1, htw.2] at hmt
        rw [shellMatches_step c L' (d :: ds) [] hm hmt]
        simp [lineCmd, hlr, hdw, shellMatches, shellScanF]
    · have hlr : lineRem (c :: L') = lineRem L' := by
        rw [lineRem, if_neg hm]
      rw [shellMatches_skip c L' hm]
      rw [ih (fun hx => hnl (List.mem_cons_of_mem c hx))
          (fun r hr => hrem r (by rw [hlr]; exact hr))]
      simp [lineCmd, hlr]

theorem shellMatches_lineStep :
    ∀ (L T : List Char), '\n' ∉ L →
      (∀ r, lineRem L = some r → r.dropWhile isSpaceChar ≠ []) →
      shellMatches (L ++ '\n' :: T) = (lineCmd L).toList ++ shellMatches T := by
  intro L
  induction L with
  | nil =>
    intro T _ _
    rw [List.nil_append, shellMatches_skip '\n' T (by simp [marker_nl])]
    rfl
  | cons c L' ih =>
    intro T hnl hrem
    by_cases hm : startsWithMarker (c :: (L' ++ '\n' :: T)) = true
    · have hm' : List.isPrefixOf MK ((c :: L') ++ '\n' :: T) = true := hm
      have hma : startsWithMarker (c :: L') = true :=
        pre_split MK (c :: L') '\n' T (by decide) hm'
      obtain ⟨L2, hL2⟩ := pre_ex MK (c :: L') hma
      have hdrop : List.drop 7 (c :: L') = L2 := by
        rw [hL2]; exact List.drop_left MK L2
      have hlr : lineRem (c :: L') = some L2 := by
        rw [lineRem, if_pos hma, hdrop]
      have hne : L2.dropWhile isSpaceChar ≠ [] := hrem L2 hlr
      have hnl2 : '\n' ∉ L2 := fun hx => hnl (hL2 ▸ List.mem_append_right MK hx)
      have hdropT : List.drop 7 (c :: (L' ++ '\n' :: T)) = L2 ++ '\n' :: T := by
        have : c :: (L' ++ '\n' :: T) = MK ++ (L2 ++ '\n' :: T) := by
          rw [← List.append_assoc, ← hL2]; rfl
        rw [this]; exact List.drop_left MK (L2 ++ '\n' :: T)
      cases hdw : L2.dropWhile isSpaceChar with
      | nil => exact absurd hdw hne
      | cons d ds =>
        have hst := dw_ne_nil_append (p := isSpaceChar) L2 ('\n' :: T) hne
        have hall : ∀ x ∈ d :: ds, (!(x == '\n')) = true := by
          intro x hx
          have : x ∈ L2 := mem_dw L2 x (by rw [hdw]; exact hx)
          simp only [Bool.not_eq_true', beq_eq_false_iff_ne]
          intro heq
          exact hnl2 (heq ▸ this)
        have hstop := tw_stop (p := fun d => !(d == '\n')) (d :: ds) '\n' T hall (by decide)
        have hdw2 : (L2 ++ '\n' :: T).dropWhile isSpaceChar = d :: (ds ++ '\n' :: T) := by
          rw [hst.2, hdw]; rfl
        have hmt := matchTail_eq_of_dw (l := List.drop 7 (c :: (L' ++ '\n' :: T)))
          (by rw [hdropT]; exact hdw2)
        rw [List.cons_append] at hstop
        rw [hstop.1, hstop.2] at hmt
        rw [show (c :: L') ++ '\n' :: T = c :: (L' ++ '\n' :: T) from rfl]
        rw [shellMatches_step c (L' ++ '\n' :: T) (d :: ds) ('\n' :: T) hm hmt]
        rw [shellMatches_skip '\n' T (by simp [marker_nl])]
        simp [lineCmd, hlr, hdw]
    · have hma : ¬ startsWithMarker (c :: L') = true := by
        intro hx
        obtain ⟨t, ht⟩ := pre_ex MK (c :: L') hx
        apply hm
        have : c :: (L' ++ '\n' :: T) = MK ++ (t ++ '\n' :: T) := by
          rw [← List.append_assoc, ← ht]; rfl
        rw [show startsWithMarker (c :: (L' ++ '\n' :: T)) =
              List.isPrefixOf MK (c :: (L' ++ '\n' :: T)) from rfl, this]
        exact pre_app MK (t ++ '\n' :: T)
      have hlr : lineRem (c :: L') = lineRem L' := by
        rw [lineRem, if_neg hma]
      rw [show (c :: L') ++ '\n' :: T = c :: (L' ++ '\n' :: T) from rfl]
      rw [shellMatches_skip c (L' ++ '\n' :: T) hm]
      rw [ih T (fun hx => hnl (List.mem_cons_of_mem c hx))
          (fun r hr => hrem r (by rw [hlr]; exact hr))]
      simp [lineCmd, hlr]

theorem shellMatches_joinLines :
    ∀ ls : List (List Char), (∀ L ∈ ls, goodLine L = true) →
      shellMatches (joinLines ls) = ls.filterMap lineCmd := by
  intro ls
  induction ls with
  | nil => intro _; rfl
  | cons L ls' ih =>
    intro h
    cases ls' with
    | nil =>
      have hp := goodLine_parts L (h L (by simp))
      rw [show joinLines [L] = L from rfl]
      rw [shellMatches_line L hp.1 hp.2]
      cases hlc : lineCmd L <;> simp [List.filterMap_cons, hlc]
    | cons M ls'' =>
      have hp := goodLine_parts L (h L (by simp))
      rw [show joinLines (L :: M :: ls'') = L ++ '\n' :: joinLines (M :: ls'') from rfl]
      rw [shellMatches_lineStep L (joinLines (M :: ls'')) hp.1 hp.2]
      rw [ih (fun x hx => h x (by simp [hx]))]
      cases hlc : lineCmd L <;> simp [List.filterMap_cons, hlc]

theorem splitNL_ne : ∀ l : List Char, splitNL l ≠ [] := by
  intro l
  induction l with
  | nil => simp [splitNL]
  | cons c rest ih =>
    simp only [splitNL]
    split
    · simp
    · split
      · simp
      · simp

theorem joinLines_splitNL : ∀ l : List Char, joinLines (splitNL l) = l := by
  intro l
  induction l with
  | nil => rfl
  | cons c rest ih =>
    simp only [splitNL]
    by_cases hc : c = '\n'
    · subst hc
      rw [if_pos rfl]
      cases hsp : splitNL rest with
      | nil => exact absurd hsp (splitNL_ne rest)
      | cons L ls =>
        rw [hsp] at ih
        rw [show joinLines ([] :: L :: ls) = [] ++ '\n' :: joinLines (L :: ls) from rfl]
        rw [ih]
        rfl
    · rw [if_neg hc]
      cases hsp : splitNL rest with
      | nil => exact absurd hsp (splitNL_ne rest)
      | cons L ls =>
        rw [hsp] at ih
        cases ls with
        | nil =>
          have hL : L = rest := ih
          rw [show joinLines [c :: L] = c :: L from rfl, hL]
        | cons M ls' =>
          rw [show joinLines ((c :: L) :: M :: ls') = (c :: L) ++ '\n' :: joinLines (M :: ls') from rfl]
          rw [show joinLines (L :: M :: ls') = L ++ '\n' :: joinLines (M :: ls') from rfl] at ih
          rw [List.cons_append, ih]

/-- Counterexample to C4 as stated: in `"$SHELL:\necho hi"` the only line
containing the marker is `"$SHELL:"`, whose trimmed remainder is empty, yet
the code's regex lets `\s*` cross the newline and extracts `"echo hi"` — the
parsed command is not the trimmed remainder of the marker's line. -/
theorem shell_commands_cross_line_cex :
    extract_shell_commands "$SHELL:\necho hi" = ["echo hi"] ∧
    specLineCommands "$SHELL:\necho hi" = [""] ∧
    extract_shell_commands "$SHELL:\necho hi" ≠
      specLineCommands "$SHELL:\necho hi" := by
  refine ⟨by decide, by decide, by decide⟩

/-- C4 (amended): for every text in which each line containing the
`$SHELL:` marker has a non-whitespace character after the first marker on
that same line, the parsed command sequence lists those lines in textual
order, each command equal to the trimmed remainder of the line after the
marker (`specLineCommands`); and when every command exits zero, the
executor runs exactly that sequence in that order. -/
theorem shell_commands_in_line_order (text : String) (env : ExecEnv)
    (h1 : goodLines text) (h2 : allCmdsOk env) :
    extract_shell_commands text = specLineCommands text ∧
    (execute_code_and_commands env [] (extract_shell_commands text)).2 =
      (extract_shell_commands text).map Event.ran := by
  constructor
  · unfold extract_shell_commands specLineCommands
    have hsm : shellMatches text.data = (splitNL text.data).filterMap lineCmd := by
      conv_lhs => rw [← joinLines_splitNL text.data]
      exact shellMatches_joinLines (splitNL text.data) h1
    rw [hsm, List.map_filterMap]
    have hfun : (fun L => (lineCmd L).map (fun g => String.mk (stripChars g))) =
        (fun L => (lineRem L).map (fun r => String.mk (stripChars r))) := by
      funext L
      unfold lineCmd
      cases lineRem L with
      | none => rfl
      | some r => simp [strip_dw]
    rw [hfun]
  · show (runCommands env (extract_shell_commands text) [] []).2 = _
    rw [runCommands_trace_all_ok env h2 _ [] []]
    simp

/-- Witness for the amended C4. -/
theorem shell_commands_in_line_order_witness :
    (goodLines "$SHELL: echo b\nline\n$SHELL: echo a" ∧ allCmdsOk envOk) ∧
    (extract_shell_commands "$SHELL: echo b\nline\n$SHELL: echo a" =
        specLineCommands "$SHELL: echo b\nline\n$SHELL: echo a" ∧
      (execute_code_and_commands envOk []
          (extract_shell_commands "$SHELL: echo b\nline\n$SHELL: echo a")).2 =
        (extract_shell_commands "$SHELL: echo b\nline\n$SHELL: echo a").map Event.ran) :=
  ⟨⟨by decide, fun _ => rfl⟩,
   shell_commands_in_line_order "$SHELL: echo b\nline\n$SHELL: echo a" envOk
     (by decide) (fun _ => rfl)⟩

/-- C5: command scanning does not exclude fenced regions.  Wrapping any
line-local text in a labelled fenced block leaves the extracted command
sequence unchanged, and concretely a `$SHELL:` line inside a fenced block
is extracted both as part of the file directive's content and as a command
directive. -/
theorem shell_scan_ignores_fences (ls : List (List Char))
    (h : ∀ L ∈ ls, goodLine L = true) :
    extract_shell_commands
        (String.mk (joinLines ("```a.py".data :: (ls ++ ["```".data])))) =
      extract_shell_commands (String.mk (joinLines ls)) ∧
    extract_code_blocks "```a.py\n$SHELL: echo hi\n```" =
      [("a.py", "$SHELL: echo hi")] ∧
    extract_shell_commands "```a.py\n$SHELL: echo hi\n```" = ["echo hi"] := by
  refine ⟨?_, by decide, by decide⟩
  unfold extract_shell_commands
  have hall : ∀ L ∈ "```a.py".data :: (ls ++ ["```".data]), goodLine L = true := by
    intro L hL
    rcases List.mem_cons.mp hL with h1 | h1
    · subst h1; decide
    · rcases List.mem_append.mp h1 with h2 | h2
      · exact h L h2
      · rcases List.mem_singleton.mp h2 with rfl
        decide
  rw [show (String.mk (joinLines ("```a.py".data :: (ls ++ ["```".data])))).data =
        joinLines ("```a.py".data :: (ls ++ ["```".data])) from rfl]
  rw [show (String.mk (joinLines ls)).data = joinLines ls from rfl]
  rw [shellMatches_joinLines _ hall, shellMatches_joinLines ls h]
  rw [List.filterMap_cons]
  rw [show lineCmd ("```a.py".data) = none from by decide]
  rw [List.filterMap_append]
  rw [show List.filterMap lineCmd ["```".data] = [] from by decide]
  simp

/-- Witness for C5. -/
theorem shell_scan_ignores_fences_witness :
    (∀ L ∈ [("$SHELL: echo hi".data)], goodLine L = true) ∧
    (extract_shell_commands
        (String.mk (joinLines ("```a.py".data :: ([("$SHELL: echo hi".data)] ++ ["```".data])))) =
      extract_shell_commands (String.mk (joinLines [("$SHELL: echo hi".data)])) ∧
    extract_code_blocks "```a.py\n$SHELL: echo hi\n```" =
      [("a.py", "$SHELL: echo hi")] ∧
    extract_shell_commands "```a.py\n$SHELL: echo hi\n```" = ["echo hi"]) :=
  ⟨by decide, shell_scan_ignores_fences [("$SHELL: echo hi".data)] (by decide)⟩

/-! ## Block scanner lemmas -/

theorem goodLabel_plain (a : List Char) (ha : a.isEmpty = false)
    (hwa : ∀ c ∈ a, isWordChar c = true) : goodLabel a = true := by
  have hta := tw_all (p := isWordChar) a hwa
  unfold goodLabel
  rw [hta.1, hta.2, ha]
  rfl

theorem goodLabel_dotted (a b : List Char) (ha : a.isEmpty = false)
    (hb : b.isEmpty = false) (hwa : ∀ c ∈ a, isWordChar c = true)
    (hwb : ∀ c ∈ b, isWordChar c = true) : goodLabel (a ++ '.' :: b) = true := by
  have hstop := tw_stop (p := isWordChar) a '.' b hwa (by decide)
  unfold goodLabel
  rw [hstop.1, hstop.2, ha]
  simp [hb, List.all_eq_true]
  intro x hx
  exact hwb x hx

theorem parseLabel_goodLabel (l nm rest : List Char)
    (h : parseLabel l = some (nm, rest)) : goodLabel nm = true := by
  simp only [parseLabel] at h
  split at h
  · exact absurd h (by simp)
  · rename_i ha
    rw [Bool.not_eq_true] at ha
    split at h
    · rename_i rest1 heq
      simp only [Option.some.injEq, Prod.mk.injEq] at h
      obtain ⟨h1, _⟩ := h
      subst h1
      exact goodLabel_plain _ ha (fun c hc => mem_tw l c hc)
    · rename_i r2 heq
      split at h
      · exact absurd h (by simp)
      · rename_i hb
        rw [Bool.not_eq_true] at hb
        split at h
        · rename_i rest2 heq2
          simp only [Option.some.injEq, Prod.mk.injEq] at h
          obtain ⟨h1, _⟩ := h
          subst h1
          exact goodLabel_dotted _ _ ha hb (fun c hc => mem_tw l c hc)
            (fun c hc => mem_tw r2 c hc)
        · exact absurd h (by simp)
    · exact absurd h (by simp)

theorem blockScanF_goodLabel :
    ∀ (f : Nat) (l : List Char) (m : List Char × List Char),
      m ∈ blockScanF f l → goodLabel m.1 = true := by
  intro f
  induction f with
  | zero => intro l m h; simp [blockScanF] at h
  | succ f ih =>
    intro l m h
    cases l with
    | nil => simp [blockScanF] at h
    | cons c rest =>
      simp only [blockScanF] at h
      split at h
      · split at h
        · rename_i lab afterNL hpl
          split at h
          · rename_i content r hfc
            rcases List.mem_cons.mp h with h1 | h1
            · rw [h1]
              exact parseLabel_goodLabel _ _ _ hpl
            · exact ih _ _ h1
          · exact ih _ _ h
        · exact ih _ _ h
      · exact ih _ _ h

/-! ## Dictionary lemmas -/

theorem filter_no_key :
    ∀ (d : List (String × String)) (k : String), k ∉ d.map Prod.fst →
      d.filter (fun p => p.1 == k) = [] := by
  intro d k
  induction d with
  | nil => intro _; rfl
  | cons p rest ih =>
    intro h
    simp only [List.map_cons, List.mem_cons, not_or] at h
    obtain ⟨h1, h2⟩ := h
    have hk : (p.1 == k) = false := by
      simp only [beq_eq_false_iff_ne]
      exact fun he => h1 he.symm
    simp [List.filter_cons, hk, ih h2]

theorem keys_dictInsert :
    ∀ (d : List (String × String)) (k v : String) (q : String × String),
      q ∈ dictInsert d k v → q.1 = k ∨ ∃ r ∈ d, r.1 = q.1 := by
  intro d k v
  induction d with
  | nil =>
    intro q hq
    simp only [dictInsert, List.mem_singleton] at hq
    exact Or.inl (by rw [hq])
  | cons p rest ih =>
    intro q hq
    obtain ⟨k1, v1⟩ := p
    simp only [dictInsert] at hq
    by_cases h1 : k1 = k
    · rw [if_pos h1] at hq
      rcases List.mem_cons.mp hq with h2 | h2
      · exact Or.inl (by rw [h2, h1])
      · exact Or.inr ⟨q, List.mem_cons_of_mem _ h2, rfl⟩
    · rw [if_neg h1] at hq
      rcases List.mem_cons.mp hq with h2 | h2
      · exact Or.inr ⟨(k1, v1), List.mem_cons_self _ _, by rw [h2]⟩
      · rcases ih q h2 with h3 | ⟨r, hr, hre⟩
        · exact Or.inl h3
        · exact Or.inr ⟨r, List.mem_cons_of_mem _ hr, hre⟩

theorem keys_dictInsert_nodup :
    ∀ (d : List (String × String)) (k v : String),
      ((d.map Prod.fst).Nodup) → (((dictInsert d k v).map Prod.fst).Nodup) := by
  intro d k v
  induction d with
  | nil => intro _; simp [dictInsert]
  | cons p rest ih =>
    intro h
    obtain ⟨k1, v1⟩ := p
    simp only [List.map_cons, List.nodup_cons] at h
    obtain ⟨h1, h2⟩ := h
    simp only [dictInsert]
    by_cases hk : k1 = k
    · rw [if_pos hk]
      simp only [List.map_cons, List.nodup_cons]
      exact ⟨h1, h2⟩
    · rw [if_neg hk]
      simp only [List.map_cons, List.nodup_cons]
      refine ⟨?_, ih h2⟩
      intro hmem
      rcases List.mem_map.mp hmem with ⟨q, hq, hqe⟩
      rcases keys_dictInsert rest k v q hq with h3 | ⟨r, hr, hre⟩
      · exact hk (by rw [← hqe, h3])
      · exact h1 (by rw [← hqe, ← hre]; exact List.mem_map_of_mem Prod.fst hr)

theorem filter_dictInsert_self :
    ∀ (d : List (String × String)) (k v : String), ((d.map Prod.fst).Nodup) →
      (dictInsert d k v).filter (fun p => p.1 == k) = [(k, v)] := by
  intro d k v
  induction d with
  | nil => simp [dictInsert, List.filter_cons]
  | cons p rest ih =>
    intro h
    obtain ⟨k1, v1⟩ := p
    simp only [List.map_cons, List.nodup_cons] at h
    obtain ⟨h1, h2⟩ := h
    simp only [dictInsert]
    by_cases hk : k1 = k
    · rw [if_pos hk]
      have hrest : rest.filter (fun p => p.1 == k) = [] := by
        apply filter_no_key
        rw [← hk]
        exact h1
      simp [List.filter_cons, hk, hrest]
    · rw [if_neg hk]
      have hk1 : (k1 == k) = false := by simp [beq_eq_false_iff_ne, hk]
      simp [List.filter_cons, hk1, ih h2]

theorem filter_dictInsert_other :
    ∀ (d : List (String × String)) (k v k' : String), k' ≠ k →
      (dictInsert d k v).filter (fun p => p.1 == k') =
        d.filter (fun p => p.1 == k') := by
  intro d k v k' hne
  induction d with
  | nil =>
    have hk : (k == k') = false := by
      simp only [beq_eq_false_iff_ne]
      exact fun he => hne he.symm
    simp [dictInsert, List.filter_cons, hk]
  | cons p rest ih =>
    obtain ⟨k1, v1⟩ := p
    simp only [dictInsert]
    by_cases h1 : k1 = k
    · rw [if_pos h1]
      have hk1 : (k1 == k') = false := by
        simp only [beq_eq_false_iff_ne]
        rw [h1]
        exact fun he => hne he.symm
      simp [List.filter_cons, hk1]
    · rw [if_neg h1]
      by_cases hk' : (k1 == k') = true
      · simp [List.filter_cons, hk', ih]
      · simp only [Bool.not_eq_true] at hk'
        simp [List.filter_cons, hk', ih]

theorem foldIns_untouched :
    ∀ (items d : List (String × String)) (k : String),
      items.filter (fun p => p.1 == k) = [] →
      (foldIns d items).filter (fun p => p.1 == k) =
        d.filter (fun p => p.1 == k) := by
  intro items
  induction items with
  | nil => intro d k _; rfl
  | cons it its ih =>
    intro d k h
    rw [List.filter_cons] at h
    by_cases hit : (it.1 == k) = true
    · simp [hit] at h
    · simp only [hit, Bool.false_eq_true, if_false] at h
      show (foldIns (dictInsert d it.1 it.2) its).filter (fun p => p.1 == k) = _
      rw [ih _ k h]
      apply filter_dictInsert_other
      simp only [Bool.not_eq_true, beq_eq_false_iff_ne] at hit
      exact fun he => hit he.symm

theorem foldIns_single :
    ∀ (items d : List (String × String)) (k v : String),
      ((d.map Prod.fst).Nodup) →
      items.filter (fun p => p.1 == k) = [(k, v)] →
      (foldIns d items).filter (fun p => p.1 == k) = [(k, v)] := by
  intro items
  induction items with
  | nil => intro d k v _ h; simp at h
  | cons it its ih =>
    intro d k v hnd h
    rw [List.filter_cons] at h
    by_cases hit : (it.1 == k) = true
    · simp only [hit, if_true, List.cons.injEq] at h
      obtain ⟨h1, h2⟩ := h
      show (foldIns (dictInsert d it.1 it.2) its).filter (fun p => p.1 == k) = _
      rw [foldIns_untouched its _ k h2]
      rw [show it = (k, v) from h1]
      exact filter_dictInsert_self d k v hnd
    · simp only [hit, Bool.false_eq_true, if_false] at h
      show (foldIns (dictInsert d it.1 it.2) its).filter (fun p => p.1 == k) = _
      exact ih _ k v (keys_dictInsert_nodup d it.1 it.2 hnd) h

theorem foldIns_last :
    ∀ (items d : List (String × String)) (k v1 v2 : String),
      ((d.map Prod.fst).Nodup) →
      items.filter (fun p => p.1 == k) = [(k, v1), (k, v2)] →
      (foldIns d items).filter (fun p => p.1 == k) = [(k, v2)] := by
  intro items
  induction items with
  | nil => intro d k v1 v2 _ h; simp at h
  | cons it its ih =>
    intro d k v1 v2 hnd h
    rw [List.filter_cons] at h
    by_cases hit : (it.1 == k) = true
    · simp only [hit, if_true, List.cons.injEq] at h
      obtain ⟨h1, h2⟩ := h
      show (foldIns (dictInsert d it.1 it.2) its).filter (fun p => p.1 == k) = _
      exact foldIns_single its _ k v2
        (keys_dictInsert_nodup d it.1 it.2 hnd) h2
    · simp only [hit, Bool.false_eq_true, if_false] at h
      show (foldIns (dictInsert d it.1 it.2) its).filter (fun p => p.1 == k) = _
      exact ih _ k v1 v2 (keys_dictInsert_nodup d it.1 it.2 hnd) h

theorem foldIns_keys :
    ∀ (items d : List (String × String)) (p : String × String),
      p ∈ foldIns d items →
      (∃ q ∈ d, q.1 = p.1) ∨ (∃ q ∈ items, q.1 = p.1) := by
  intro items
  induction items with
  | nil => intro d p hp; exact Or.inl ⟨p, hp, rfl⟩
  | cons it its ih =>
    intro d p hp
    have hp' : p ∈ foldIns (dictInsert d it.1 it.2) its := hp
    rcases ih _ p hp' with ⟨q, hq, hqe⟩ | ⟨q, hq, hqe⟩
    · rcases keys_dictInsert d it.1 it.2 q hq with h1 | ⟨r, hr, hre⟩
      · exact Or.inr ⟨it, List.mem_cons_self _ _, by rw [← h1, hqe]⟩
      · exact Or.inl ⟨r, hr, by rw [hre, hqe]⟩
    · exact Or.inr ⟨q, List.mem_cons_of_mem _ hq, hqe⟩

/-- C3: when a text's fenced-block matches carry the same label exactly
twice, with different trimmed contents, the extracted file-directive dict
holds exactly one entry under that label, whose content is the second
block's content trimmed — the later occurrence overwrites the earlier by
map-insertion semantics. -/
theorem label_overwrite (text : String) (nm c1 c2 : String)
    (hm : (blockDirectives text).filter (fun p => p.1 == nm) = [(nm, c1), (nm, c2)])
    (_hdiff : pyStrip c1 ≠ pyStrip c2) :
    (extract_code_blocks text).filter (fun p => p.1 == nm) = [(nm, pyStrip c2)] := by
  unfold extract_code_blocks
  apply foldIns_last _ _ nm (pyStrip c1) (pyStrip c2) (by simp)
  rw [List.filter_map]
  have hcomp : ((fun p : String × String => p.1 == nm) ∘
      (fun p : String × String => (p.1, pyStrip p.2))) =
      (fun p : String × String => p.1 == nm) := rfl
  rw [hcomp, hm]
  rfl

/-- Witness for C3. -/
theorem label_overwrite_witness :
    ((blockDirectives "```a.py\none\n```\n```a.py\ntwo\n```").filter
        (fun p => p.1 == "a.py") = [("a.py", "one\n"), ("a.py", "two\n")] ∧
      pyStrip "one\n" ≠ pyStrip "two\n") ∧
    (extract_code_blocks "```a.py\none\n```\n```a.py\ntwo\n```").filter
        (fun p => p.1 == "a.py") = [("a.py", pyStrip "two\n")] :=
  ⟨⟨by decide, by decide⟩,
   label_overwrite "```a.py\none\n```\n```a.py\ntwo\n```" "a.py" "one\n" "two\n"
     (by decide) (by decide)⟩

/-- C9: every file directive the parser produces carries a label of the
grammar `\w+(\.\w+)?`; a fenced block whose label has a path separator (or
any other rejected character), or that has no label at all, produces no
file directive and is silently skipped. -/
theorem fence_label_grammar :
    (∀ (text : String) (p : String × String),
        p ∈ extract_code_blocks text → goodLabel p.1.data = true) ∧
    extract_code_blocks "```src/main.py\nprint(1)\n```" = [] ∧
    extract_code_blocks "```\nprint(1)\n```" = [] := by
  refine ⟨?_, by decide, by decide⟩
  intro text p hp
  unfold extract_code_blocks at hp
  rcases foldIns_keys _ _ p hp with ⟨q, hq, _⟩ | ⟨q, hq, hqk⟩
  · simp at hq
  · rcases List.mem_map.mp hq with ⟨q0, hq0, hq0e⟩
    unfold blockDirectives at hq0
    rcases List.mem_map.mp hq0 with ⟨m, hmem, hme⟩
    have h1 : p.1 = String.mk m.1 := by rw [← hqk, ← hq0e, ← hme]
    rw [h1]
    exact blockScanF_goodLabel _ _ m hmem

/-- Witness for C9. -/
theorem fence_label_grammar_witness :
    (("main.py", "code here") ∈ extract_code_blocks "```main.py\ncode here\n```") ∧
    goodLabel ("main.py" : String).data = true :=
  ⟨by decide,
   fence_label_grammar.1 "```main.py\ncode here\n```" ("main.py", "code here")
     (by decide)⟩
